import Mathlib

/-!
Verification of the bookmark-conversion pipeline (`main.py`,
`apply_json_to_docx.py`).

The document model is a shallow embedding of the lxml element tree that the
scripts mutate: a document body is a list of nodes, paragraphs and inline
containers carry child lists, bookmark markers are leaves.  Python element
identity is modelled by a numeric identifier `nid` carried by bookmark-start
markers (the only elements the scripts hold references to across mutations);
all other elements are located positionally, exactly as lxml locates them
through `getparent` / `index`.

Python string methods (`str.lower`, `str.startswith`, `str.strip`, …) are
modelled at the character-list level so that every definition reduces inside
the kernel.  The table-driven NFKD normalization step of
`normalize_bookmark_name` is an external Unicode algorithm; it enters the
model as an opaque function parameter `nfkd`.
-/

namespace CaresBookmarks

/-! ## Character-level models of the Python string operations -/

/-- Model of Python `str.lower` (ASCII case folding, which is all the
reference names exercise). -/
def str_lower (s : String) : String := ⟨s.data.map Char.toLower⟩

/-- Model of Python `str.startswith`. -/
def str_starts (s p : String) : Bool := List.isPrefixOf p.data s.data

/-- Model of Python `str.endswith`. -/
def str_ends (s p : String) : Bool := List.isSuffixOf p.data s.data

/-- Model of Python `str.strip` (drop leading and trailing whitespace). -/
def str_strip (s : String) : String :=
  ⟨((s.data.dropWhile Char.isWhitespace).reverse.dropWhile Char.isWhitespace).reverse⟩

/-- Model of `s.encode("ascii", "ignore").decode("ascii")`: drop every
non-ASCII character. -/
def ascii_ignore (s : String) : String := ⟨s.data.filter (fun c => c.toNat < 128)⟩

/-- Lexicographic code-point comparison on character lists, the order Python's
`sorted` uses on strings. -/
def chars_le : List Char → List Char → Bool
  | [], _ => true
  | _ :: _, [] => false
  | a :: as, b :: bs => if a < b then true else if b < a then false else chars_le as bs

/-- Lexicographic code-point comparison on strings. -/
def str_le (a b : String) : Bool := chars_le a.data b.data

/-! ## main.py: name normalization and the eligibility filter -/

/-- Translation of `normalize_bookmark_name` (main.py:45-49):
`strip`, then NFKD-normalize, then drop non-ASCII characters.  The NFKD
table is passed in as `nfkd`. -/
def normalize_bookmark_name (nfkd : String → String) (name : String) : String :=
  ascii_ignore (nfkd (str_strip name))

/-- Eligibility decision of the per-bookmark guards in `process_document`
(main.py:202-209): the two `continue` guards skip a bookmark when its
lowercase form starts with "text" or "check", or when the name is not an
exact member of the approved set.  The prefix test is evaluated first,
as in the source. -/
def bookmark_eligible (valid : List String) (name : String) : Bool :=
  let lower := str_lower name
  if str_starts lower "text" || str_starts lower "check" then false
  else if !(valid.contains name) then false
  else true

/-- Filter contract in the spec's wording (section 4.2): membership first,
prefix exclusion second. -/
def filter_contract (valid : List String) (name : String) : Bool :=
  valid.contains name &&
    !(str_starts (str_lower name) "text" || str_starts (str_lower name) "check")

/-- Model of Python `set.add` on an accumulator kept as a duplicate-free
list (main.py:213). -/
def add_name (uniq : List String) (name : String) : List String :=
  if uniq.contains name then uniq else uniq ++ [name]

/-- Propositional form of the lexicographic order, the sort key of Python's
`sorted` on strings. -/
def str_le_rel (a b : String) : Prop := str_le a b = true

instance : DecidableRel str_le_rel := fun a b =>
  inferInstanceAs (Decidable (str_le a b = true))

/-- Translation of `write_unique_bookmarks` (main.py:235-240) to the list of
CSV rows it writes: a header row, then one row `[name, ""]` per accumulated
name, in Python `sorted` order. -/
def write_unique_bookmarks (uniq : List String) : List (List String) :=
  ["bookmark_name", "json"] ::
    (List.insertionSort str_le_rel uniq).map (fun name => [name, ""])

/-! ## The document tree (lxml element model) -/

/-- Paragraph properties (`w:pPr`): the `w:spacing` attributes that
`set_paragraph_spacing` manipulates, plus an opaque payload standing for all
remaining formatting, which `copy.deepcopy` copies verbatim. -/
structure PPr where
  before : Option String
  after : Option String
  payload : Nat
deriving Repr, DecidableEq

/-- Nodes of the document tree.  `para` is `w:p`, `container` is any other
element with children (`w:hyperlink`, `w:smartTag`, a table cell, the body of
a nested table, …), `run` is a `w:r` holding one `w:t` with
`xml:space="preserve"` as built by `_make_run_text`, and `other` is any other
childless element.  A `bookmarkStart` carries the model identifier `nid`
(standing for Python object identity), its `w:id` attribute and its `w:name`
attribute; a `bookmarkEnd` carries its `w:id` attribute. -/
inductive Node : Type where
  | pPr (props : PPr)
  | bookmarkStart (nid : Nat) (wid : Option String) (name : String)
  | bookmarkEnd (wid : Option String)
  | run (text : String)
  | para (children : List Node)
  | container (children : List Node)
  | other
deriving Repr

/-- Predicate selecting the bookmark-start marker the processor holds a
reference to. -/
def isStartNid (nid : Nat) : Node → Bool
  | .bookmarkStart n _ _ => n == nid
  | _ => false

/-- Predicate selecting a `w:bookmarkEnd` whose `w:id` equals the given
identifier (the comparison in `find_bookmark_end`, main.py:72). -/
def isEndWid (wid : String) : Node → Bool
  | .bookmarkEnd w => w == some wid
  | _ => false

/-- Whether a node is a `w:pPr` element (the `children[0].tag == qn("w:pPr")`
test). -/
def isPPrNode : Node → Bool
  | .pPr _ => true
  | _ => false

mutual

/-- Whether a node or one of its descendants satisfies `p`. -/
def nodeHas (p : Node → Bool) : Node → Bool
  | .para cs => p (.para cs) || hasNode p cs
  | .container cs => p (.container cs) || hasNode p cs
  | n => p n

/-- Whether some node of the forest (in document order, descending into
paragraphs and containers) satisfies `p`. -/
def hasNode (p : Node → Bool) : List Node → Bool
  | [] => false
  | n :: ns => nodeHas p n || hasNode p ns

end

/-- Pointers into the tree: `(cpath, i)` designates index `i` of the child
list reached from the body by descending through the children of the nodes
at the indices listed in `cpath`.  This is the positional counterpart of an
lxml element reference. -/
abbrev Ptr := List Nat × Nat

/-- Shift a pointer one sibling to the right at the top level. -/
def bumpPtr : Ptr → Ptr
  | ([], j) => ([], j + 1)
  | (c :: cp, j) => ((c + 1) :: cp, j)

mutual

/-- Search for `p` among the descendants of one node (the descent step of
`body.iter`). -/
def findPtrIn (p : Node → Bool) : Node → Option Ptr
  | .para cs =>
    (match findPtr p cs with
     | some (cp, j) => some (0 :: cp, j)
     | none => none)
  | .container cs =>
    (match findPtr p cs with
     | some (cp, j) => some (0 :: cp, j)
     | none => none)
  | _ => none

/-- First node (in document order) satisfying `p`, as a pointer; `none` when
no node matches.  This models both `body.iter(...)` searches and the identity
of an element held by the Python code. -/
def findPtr (p : Node → Bool) : List Node → Option Ptr
  | [] => none
  | n :: ns =>
    if p n then some ([], 0)
    else
      match findPtrIn p n with
      | some r => some r
      | none => (findPtr p ns).map bumpPtr

end

/-- Deepest `w:p` on the ancestor chain described by a container path:
the paragraph `get_paragraph_element` (main.py:61-64) reaches by walking
`getparent` links from the node the path leads to.  Returns the pointer of
that paragraph. -/
def nearestPara : List Node → List Nat → Option Ptr
  | _, [] => none
  | ns, i :: q =>
    match ns[i]? with
    | none => none
    | some n =>
      let deeper :=
        match n with
        | .para cs => (nearestPara cs q).map (fun r => (i :: r.1, r.2))
        | .container cs => (nearestPara cs q).map (fun r => (i :: r.1, r.2))
        | _ => none
      match deeper with
      | some r => some r
      | none =>
        match n with
        | .para _ => some ([], i)
        | _ => none

/-- Node a pointer designates (container path and final index given
separately). -/
def nodeAt : List Node → List Nat → Nat → Option Node
  | ns, [], j => ns[j]?
  | ns, i :: q, j =>
    match ns[i]? with
    | some (.para cs) => nodeAt cs q j
    | some (.container cs) => nodeAt cs q j
    | _ => none

/-- Rewrite the child list reached by a container path with `f`.  Models an
in-place mutation of the sibling list holding an lxml element. -/
def mapChildrenAt (f : List Node → List Node) : List Node → List Nat → List Node
  | ns, [] => f ns
  | ns, i :: q =>
    ns.modify
      (fun n =>
        match n with
        | .para cs => .para (mapChildrenAt f cs q)
        | .container cs => .container (mapChildrenAt f cs q)
        | n => n) i

/-! ## main.py: the tree operations -/

/-- Translation of `_make_run_text` (main.py:77-83): a fresh `w:r` holding a
single whitespace-preserving `w:t` with the given text. -/
def make_run_text (text : String) : Node := Node.run text

/-- Update of one `w:spacing` attribute: `spacing.set` is called only when
the argument is present (main.py:101-104). -/
def updPPr (pr : PPr) (b a : Option String) : PPr :=
  { before := b.orElse (fun _ => pr.before)
    after := a.orElse (fun _ => pr.after)
    payload := pr.payload }

/-- Update of the first `w:pPr` among a paragraph's children (the
`p_elm.find(qn("w:pPr"))` lookup); `none` when the paragraph has no `w:pPr`. -/
def updateFirstPPr (b a : Option String) : List Node → Option (List Node)
  | [] => none
  | Node.pPr pr :: rest => some (Node.pPr (updPPr pr b a) :: rest)
  | n :: rest => (updateFirstPPr b a rest).map (fun r => n :: r)

/-- Translation of `set_paragraph_spacing` (main.py:86-104) acting on a
paragraph's child list: update the first `w:pPr` child if present, otherwise
create one and insert it at position 0.  A `w:spacing` child is created on
demand, which the `PPr` record absorbs. -/
def set_paragraph_spacing (b a : Option String) (ns : List Node) : List Node :=
  match updateFirstPPr b a ns with
  | some ns2 => ns2
  | none => Node.pPr (updPPr ⟨none, none, 0⟩ b a) :: ns

/-- Apply `set_paragraph_spacing` to a node when it is a paragraph. -/
def setSpacingNode (b a : Option String) : Node → Node
  | .para cs => .para (set_paragraph_spacing b a cs)
  | n => n

/-- Translation of `split_paragraph_before_bookmark` (main.py:112-168).
Locate the marker (a detached marker has no ancestors, so
`get_paragraph_element` yields nothing), find its nearest enclosing
paragraph, require the marker to be a direct child of it
(`children.index(bkm_start)` raises otherwise), and unless the marker is
already at or before the first movable position, move everything before it
into a freshly inserted preceding paragraph that deep-copies the `w:pPr`,
then zero out the spacing on the new boundary.  Returns the rewritten body
and the function's boolean result. -/
def split_paragraph_before_bookmark (doc : List Node) (nid : Nat) : List Node × Bool :=
  match findPtr (isStartNid nid) doc with
  | none => (doc, false)
  | some (cpath, idx) =>
    match nearestPara doc cpath with
    | none => (doc, false)
    | some (pp, pi) =>
      if pp ++ [pi] = cpath then
        match nodeAt doc pp pi with
        | some (.para children) =>
          let has_ppr : Bool := match children with
            | c :: _ => isPPrNode c
            | [] => false
          let first_movable_idx := if has_ppr then 1 else 0
          if idx ≤ first_movable_idx then (doc, false)
          else
            let kept := if has_ppr then children.take 1 else []
            let to_move := (children.take idx).drop first_movable_idx
            let new_p := Node.para (set_paragraph_spacing none (some "0") (kept ++ to_move))
            let p_rest := Node.para (set_paragraph_spacing (some "0") none
              (children.take first_movable_idx ++ children.drop idx))
            (mapChildrenAt
              (fun sib => sib.take pi ++ [new_p, p_rest] ++ sib.drop (pi + 1)) doc pp,
             true)
        | _ => (doc, false)
      else (doc, false)

/-- Translation of `find_bookmark_end` (main.py:67-74): first `w:bookmarkEnd`
in document order whose `w:id` matches the start marker's; nothing when the
start has no `w:id`. -/
def find_bookmark_end (doc : List Node) (startWid : Option String) : Option Ptr :=
  match startWid with
  | none => none
  | some sid => findPtr (isEndWid sid) doc

/-- Translation of `replace_bookmark_range_with_text` (main.py:171-193).
The start marker's `w:id` attribute and identity travel with the snapshot
entry (`nid`, `startWid`).  Fails without mutation when no matching end
exists or the two markers have different immediate parents; otherwise
removes every child strictly between them and inserts one text run after the
start marker. -/
def replace_bookmark_range_with_text (doc : List Node) (nid : Nat)
    (startWid : Option String) (text : String) : List Node × Bool :=
  match find_bookmark_end doc startWid with
  | none => (doc, false)
  | some (ecp, eidx) =>
    match findPtr (isStartNid nid) doc with
    | none => (doc, false)
    | some (scp, sidx) =>
      if scp = ecp then
        (mapChildrenAt
          (fun ch => ch.take (sidx + 1) ++ [make_run_text text]
            ++ ch.drop (max (sidx + 1) eidx)) doc scp,
         true)
      else (doc, false)

mutual

/-- Snapshot contribution of a single node: the marker itself when it is a
named bookmark start, the recursive snapshot of its children when it has
any. -/
def iterStartsIn : Node → List (Nat × Option String × String)
  | .bookmarkStart nid wid name => if name = "" then [] else [(nid, wid, name)]
  | .para cs => iter_bookmark_starts cs
  | .container cs => iter_bookmark_starts cs
  | _ => []

/-- Document-order snapshot of every bookmark-start marker carrying a
non-empty name, together with its `w:id` attribute. -/
def iter_bookmark_starts : List Node → List (Nat × Option String × String)
  | [] => []
  | n :: ns => iterStartsIn n ++ iter_bookmark_starts ns

end

/-- State threaded through the bookmark loop of `process_document`: the
mutated document, the run-level unique-name accumulator, and the
per-document tally counter. -/
structure RunState where
  doc : List Node
  uniq : List String
  count : Nat
deriving Repr

/-- One iteration of the bookmark loop in `process_document`
(main.py:202-218): skip excluded prefixes, skip names outside the approved
set, record the normalized name when non-empty, attempt the split (the
result is discarded), attempt the replacement and count it on success. -/
def process_step (valid : List String) (nfkd : String → String)
    (st : RunState) (b : Nat × Option String × String) : RunState :=
  let (nid, wid, name) := b
  let lower := str_lower name
  if str_starts lower "text" || str_starts lower "check" then st
  else if !(valid.contains name) then st
  else
    let cleaned := normalize_bookmark_name nfkd name
    let uniq1 := if cleaned ≠ "" then add_name st.uniq cleaned else st.uniq
    let split1 := split_paragraph_before_bookmark st.doc nid
    let repl := replace_bookmark_range_with_text split1.1 nid wid name
    { doc := repl.1
      uniq := uniq1
      count := if repl.2 then st.count + 1 else st.count }

/-- Translation of `process_document` (main.py:196-225) restricted to its
in-memory effect: snapshot the bookmarks, then run the loop.  The returned
state carries the mutated document, the updated unique-name accumulator and
the bookmark tally the function returns. -/
def process_document (valid : List String) (nfkd : String → String)
    (doc : List Node) (uniq : List String) : RunState :=
  (iter_bookmark_starts doc).foldl (process_step valid nfkd) ⟨doc, uniq, 0⟩

/-! ## Auxiliary definitions used by the statements -/

/-- Shift a pointer `k` siblings to the right at the top level. -/
def shiftPtr (k : Nat) : Ptr → Ptr
  | ([], j) => ([], j + k)
  | (c :: cp, j) => ((c + k) :: cp, j)

/-- Child-list encoding of an optional leading `w:pPr`. -/
def leadList : Option PPr → List Node
  | none => []
  | some pr => [.pPr pr]

/-- Paragraph properties of the newly inserted paragraph after the split:
the deep copy of the original `w:pPr` (or a fresh one) with trailing spacing
forced to zero. -/
def spacingAfterZero (lead : Option PPr) : PPr :=
  updPPr (lead.getD ⟨none, none, 0⟩) none (some "0")

/-- Paragraph properties of the original paragraph after the split: its
`w:pPr` (or a fresh one) with leading spacing forced to zero. -/
def spacingBeforeZero (lead : Option PPr) : PPr :=
  updPPr (lead.getD ⟨none, none, 0⟩) (some "0") none

/-- Movable children of a paragraph: everything after an optional leading
`w:pPr`. -/
def movableChildren : List Node → List Node
  | .pPr _ :: rest => rest
  | ns => ns

/-- Concrete document for the C1 counterexample: one paragraph holding an
approved bookmark wrapping the run "old". -/
def docC1ce : List Node :=
  [.para [.bookmarkStart 1 (some "0") "ChildName", .run "old",
          .bookmarkEnd (some "0")]]

/-- Concrete document for the C7 counterexample: an approved bookmark whose
range wholly encloses a second, non-approved bookmark. -/
def docC7ce : List Node :=
  [.para [.bookmarkStart 1 (some "0") "Approved",
          .bookmarkStart 2 (some "1") "Other", .run "x",
          .bookmarkEnd (some "1"), .bookmarkEnd (some "0")]]

/-! ## apply_json_to_docx.py: token derivation -/

/-- Token derivation of `load_data_dictionary` (apply_json_to_docx.py:56):
a "Json Path" value already wrapped in double braces is used verbatim,
any other value is wrapped. -/
def derive_token (json_str : String) : String :=
  if str_starts json_str "\x7b\x7b" && str_ends json_str "\x7d\x7d" then json_str
  else "\x7b\x7b" ++ json_str ++ "\x7d\x7d"

/-! ## Lemmas about the lexicographic order -/

theorem chars_le_total : ∀ as bs : List Char, chars_le as bs = true ∨ chars_le bs as = true
  | [], _ => Or.inl rfl
  | _ :: _, [] => Or.inr rfl
  | a :: as, b :: bs => by
    rcases lt_trichotomy a b with h | h | h
    · left; simp [chars_le, h]
    · subst h
      rcases chars_le_total as bs with ih | ih
      · left; simpa [chars_le, lt_irrefl] using ih
      · right; simpa [chars_le, lt_irrefl] using ih
    · right; simp [chars_le, h]

theorem chars_le_trans :
    ∀ as bs cs : List Char,
      chars_le as bs = true → chars_le bs cs = true → chars_le as cs = true
  | [], _, _ => by intro _ _; rfl
  | _ :: _, [], _ => by intro h _; exact absurd h (by simp [chars_le])
  | _ :: _, _ :: _, [] => by intro _ h; exact absurd h (by simp [chars_le])
  | a :: as, b :: bs, c :: cs => by
    intro h1 h2
    rcases lt_trichotomy a b with hab | hab | hab
    · rcases lt_trichotomy b c with hbc | hbc | hbc
      · simp [chars_le, lt_trans hab hbc]
      · subst hbc; simp [chars_le, hab]
      · exact absurd h2 (by simp [chars_le, lt_asymm hbc, hbc])
    · subst hab
      rcases lt_trichotomy a c with hbc | hbc | hbc
      · simp [chars_le, hbc]
      · subst hbc
        simp only [chars_le, lt_irrefl, if_neg (lt_irrefl a)] at h1 h2 ⊢
        exact chars_le_trans as bs cs h1 h2
      · exact absurd h2 (by simp [chars_le, lt_asymm hbc, hbc])
    · exact absurd h1 (by simp [chars_le, lt_asymm hab, hab])

instance : IsTotal String str_le_rel :=
  ⟨fun a b => chars_le_total a.data b.data⟩

instance : IsTrans String str_le_rel :=
  ⟨fun a b c => chars_le_trans a.data b.data c.data⟩

/-! ## Lemmas about the accumulator -/

theorem mem_add_name_self (uniq : List String) (s : String) : s ∈ add_name uniq s := by
  unfold add_name
  split
  · next h => exact List.mem_of_elem_eq_true h
  · exact List.mem_append_right _ (List.mem_singleton.mpr rfl)

theorem nodup_add_name (uniq : List String) (s : String) (h : uniq.Nodup) :
    (add_name uniq s).Nodup := by
  unfold add_name
  split
  · exact h
  · next hc =>
    refine List.Nodup.append h (List.nodup_singleton s) ?_
    intro x hx hxs
    rw [List.mem_singleton] at hxs
    subst hxs
    exact hc (List.elem_eq_true_of_mem hx)

theorem bookmark_eligible_iff (valid : List String) (name : String) :
    bookmark_eligible valid name = true ↔
      (str_starts (str_lower name) "text" || str_starts (str_lower name) "check") = false ∧
        valid.contains name = true := by
  unfold bookmark_eligible
  cases h1 : str_starts (str_lower name) "text" <;>
    cases h2 : str_starts (str_lower name) "check" <;>
      cases h3 : valid.contains name <;> simp [h1, h2, h3]

/-! ## Claim C2: the filter decision -/

/-- C2: the per-bookmark guard of `process_document` computes exactly
"exact, case-sensitive membership in the approved set AND NOT (lowercase
form starts with text or check)"; the source's order (prefix test first,
membership second) and the spec's order (membership first) give the same
boolean for every name and approved set. -/
theorem claim_C2_filter_decision (valid : List String) (name : String) :
    bookmark_eligible valid name = filter_contract valid name := by
  unfold bookmark_eligible filter_contract
  cases h1 : str_starts (str_lower name) "text" <;>
    cases h2 : str_starts (str_lower name) "check" <;>
      cases h3 : valid.contains name <;> simp [h1, h2, h3]

/-! ## Claim C8: token wrapping -/

/-- C8: for a non-empty spreadsheet "Json Path" value, the derived token is
the value itself when it already starts with a double opening brace and ends
with a double closing brace, and the value wrapped in double braces
otherwise; in particular `case.child.name` yields exactly the wrapped form,
and an already-wrapped value is unchanged. -/
theorem claim_C8_token_wrapping (s : String) (h : s ≠ "") :
    ((str_starts s "\x7b\x7b" && str_ends s "\x7d\x7d") = true → derive_token s = s) ∧
    ((str_starts s "\x7b\x7b" && str_ends s "\x7d\x7d") = false →
      derive_token s = "\x7b\x7b" ++ s ++ "\x7d\x7d") ∧
    derive_token "case.child.name" = "\x7b\x7bcase.child.name\x7d\x7d" ∧
    derive_token "\x7b\x7bcase.child.name\x7d\x7d" = "\x7b\x7bcase.child.name\x7d\x7d" :=
  ⟨fun hw => by simp [derive_token, hw],
   fun hw => by simp [derive_token, hw],
   by decide, by decide⟩

/-- Witness for C8: the spreadsheet value `case.child.name` derives exactly
the wrapped token. -/
theorem claim_C8_token_wrapping_witness :
    derive_token "case.child.name" = "\x7b\x7bcase.child.name\x7d\x7d" :=
  (claim_C8_token_wrapping "case.child.name" (by decide)).2.2.1

/-! ## Claim C9: the unique-bookmarks CSV -/

/-- C9: for a duplicate-free run accumulator (the shape `set.add` maintains,
see `nodup_add_name`), the rows written by `write_unique_bookmarks` are the
header `bookmark_name,json` followed by exactly one row per distinct
accumulated name, sorted lexicographically, each with an empty second
column. -/
theorem claim_C9_unique_csv (u : List String) (h : u.Nodup) :
    ∃ names : List String,
      write_unique_bookmarks u
          = ["bookmark_name", "json"] :: names.map (fun n => [n, ""]) ∧
        names.Perm u ∧ names.Nodup ∧ List.Sorted str_le_rel names :=
  ⟨List.insertionSort str_le_rel u, rfl, List.perm_insertionSort _ _,
   (List.perm_insertionSort str_le_rel u).symm.nodup h,
   List.sorted_insertionSort _ _⟩

/-- Witness for C9 at the accumulator `["b", "a"]`. -/
theorem claim_C9_unique_csv_witness :
    ∃ names : List String,
      write_unique_bookmarks ["b", "a"]
          = ["bookmark_name", "json"] :: names.map (fun n => [n, ""]) ∧
        names.Perm ["b", "a"] ∧ names.Nodup ∧ List.Sorted str_le_rel names :=
  claim_C9_unique_csv ["b", "a"] (by decide)

/-! ## Claim C10: names are recorded before replacement is attempted -/

/-- C10: for a bookmark that passes the filter and whose normalized name is
non-empty, one loop iteration of `process_document` adds the normalized name
to the run-level unique accumulator unconditionally — in particular even
when the range replacement fails — while the per-document tally is
incremented exactly when `replace_bookmark_range_with_text` (run on the
document after the split attempt) reports success. -/
theorem claim_C10_record_before_replace (valid : List String)
    (nfkd : String → String) (st : RunState) (nid : Nat) (wid : Option String)
    (name : String) (helig : bookmark_eligible valid name = true)
    (hclean : normalize_bookmark_name nfkd name ≠ "") :
    (process_step valid nfkd st (nid, wid, name)).uniq
        = add_name st.uniq (normalize_bookmark_name nfkd name) ∧
      normalize_bookmark_name nfkd name
          ∈ (process_step valid nfkd st (nid, wid, name)).uniq ∧
      (process_step valid nfkd st (nid, wid, name)).count
        = (if (replace_bookmark_range_with_text
                (split_paragraph_before_bookmark st.doc nid).1 nid wid name).2
           then st.count + 1 else st.count) := by
  obtain ⟨hp, hm⟩ := (bookmark_eligible_iff valid name).mp helig
  have hmem : name ∈ valid := List.mem_of_elem_eq_true hm
  refine ⟨?_, ?_, ?_⟩ <;>
    simp [process_step, hp, hm, hmem, hclean, mem_add_name_self]

/-- Witness for C10: eligible name "A" with identity NFKD on an empty
document, where the replacement necessarily fails yet the name is
recorded. -/
theorem claim_C10_record_before_replace_witness :
    (process_step ["A"] (fun s => s) ⟨[], [], 0⟩ (0, none, "A")).uniq
        = add_name [] (normalize_bookmark_name (fun s => s) "A") ∧
      normalize_bookmark_name (fun s => s) "A"
          ∈ (process_step ["A"] (fun s => s) ⟨[], [], 0⟩ (0, none, "A")).uniq ∧
      (process_step ["A"] (fun s => s) ⟨[], [], 0⟩ (0, none, "A")).count
        = (if (replace_bookmark_range_with_text
                (split_paragraph_before_bookmark ([] : List Node) 0).1 0 none "A").2
           then 0 + 1 else 0) :=
  claim_C10_record_before_replace ["A"] (fun s => s) ⟨[], [], 0⟩ 0 none "A"
    (by decide) (by decide)

/-! ## Lemmas about tree traversal -/

theorem shiftPtr_zero (r : Ptr) : shiftPtr 0 r = r := by
  rcases r with ⟨c, j⟩
  cases c <;> simp [shiftPtr]

theorem bump_shift (k : Nat) (r : Ptr) : bumpPtr (shiftPtr k r) = shiftPtr (k + 1) r := by
  rcases r with ⟨c, j⟩
  cases c <;> simp [shiftPtr, bumpPtr, Nat.add_assoc]

theorem map_comp_bump_shift (k : Nat) (o : Option Ptr) :
    Option.map (bumpPtr ∘ shiftPtr k) o = Option.map (shiftPtr (k + 1)) o := by
  cases o with
  | none => rfl
  | some r => simp [Function.comp, bump_shift]

theorem nodeHas_false (p : Node → Bool) (n : Node) (h : nodeHas p n = false) :
    p n = false := by
  cases n <;> simp only [nodeHas, Bool.or_eq_false_iff] at h <;>
    first
      | exact h.1
      | exact h

theorem hasNode_append (p : Node → Bool) :
    ∀ xs ys, hasNode p (xs ++ ys) = (hasNode p xs || hasNode p ys)
  | [], ys => by simp [hasNode]
  | x :: xs, ys => by
    simp [hasNode, hasNode_append p xs ys, Bool.or_assoc]

theorem hasNode_false_forall (p : Node → Bool) :
    ∀ ns, hasNode p ns = false → ∀ n ∈ ns, p n = false
  | n0 :: ns, h, n, hn => by
    simp only [hasNode, Bool.or_eq_false_iff] at h
    rcases List.mem_cons.mp hn with rfl | hn2
    · exact nodeHas_false p n h.1
    · exact hasNode_false_forall p ns h.2 n hn2

mutual

theorem findPtrIn_eq_none (p : Node → Bool) :
    ∀ n, nodeHas p n = false → findPtrIn p n = none
  | .pPr pr, _ => rfl
  | .bookmarkStart nid wid name, _ => rfl
  | .bookmarkEnd wid, _ => rfl
  | .run t, _ => rfl
  | .other, _ => rfl
  | .para cs, h => by
    simp only [nodeHas, Bool.or_eq_false_iff] at h
    simp [findPtrIn, findPtr_eq_none p cs h.2]
  | .container cs, h => by
    simp only [nodeHas, Bool.or_eq_false_iff] at h
    simp [findPtrIn, findPtr_eq_none p cs h.2]

theorem findPtr_eq_none (p : Node → Bool) :
    ∀ ns, hasNode p ns = false → findPtr p ns = none
  | [], _ => by simp [findPtr]
  | n :: ns, h => by
    simp only [hasNode, Bool.or_eq_false_iff] at h
    simp [findPtr, nodeHas_false p n h.1, findPtrIn_eq_none p n h.1,
      findPtr_eq_none p ns h.2]

end

theorem findPtr_append (p : Node → Bool) :
    ∀ xs ys, hasNode p xs = false →
      findPtr p (xs ++ ys) = (findPtr p ys).map (shiftPtr xs.length)
  | [], ys, _ => by
    cases hfy : findPtr p ys with
    | none => simp [hfy]
    | some r => simp [hfy, shiftPtr_zero]
  | x :: xs, ys, h => by
    simp only [hasNode, Bool.or_eq_false_iff] at h
    rw [List.cons_append]
    simp [findPtr, nodeHas_false p x h.1, findPtrIn_eq_none p x h.1,
      findPtr_append p xs ys h.2, map_comp_bump_shift]

theorem getElem?_append_cons {α : Type} (A : List α) (x : α) (B : List α) :
    (A ++ x :: B)[A.length]? = some x := by
  rw [List.getElem?_append_right (Nat.le_refl _)]
  simp

theorem drop_append_cons {α : Type} (A : List α) (x : α) (B : List α) :
    (A ++ x :: B).drop (A.length + 1) = B := by
  have h : A ++ x :: B = (A ++ [x]) ++ B := by simp
  have hlen : A.length + 1 = (A ++ [x]).length := by simp
  rw [h, hlen, List.drop_left]

theorem take_append_cons {α : Type} (A : List α) (x : α) (B : List α) :
    (A ++ x :: B).take (A.length + 1) = A ++ [x] := by
  have h : A ++ x :: B = (A ++ [x]) ++ B := by simp
  have hlen : A.length + 1 = (A ++ [x]).length := by simp
  rw [h, hlen, List.take_left]

theorem nearestPara_at (A B ch : List Node) :
    nearestPara (A ++ .para ch :: B) [A.length] = some ([], A.length) := by
  simp only [nearestPara]
  rw [getElem?_append_cons]
  simp [nearestPara]

theorem nodeAt_at (A : List Node) (x : Node) (B : List Node) :
    nodeAt (A ++ x :: B) [] A.length = some x := by
  simp only [nodeAt]
  rw [getElem?_append_cons]

theorem modify_append_cons (f : Node → Node) :
    ∀ (A : List Node) (x : Node) (B : List Node),
      List.modify f A.length (A ++ x :: B) = A ++ f x :: B
  | [], x, B => rfl
  | a :: A, x, B => congrArg (List.cons a) (modify_append_cons f A x B)

theorem updateFirstPPr_eq_none (b a : Option String) :
    ∀ ns, ns.all (fun n => !isPPrNode n) = true → updateFirstPPr b a ns = none
  | [], _ => rfl
  | .pPr pr :: ns, h => by simp [isPPrNode] at h
  | .bookmarkStart nid wid name :: ns, h => by
    simp only [List.all_cons, Bool.and_eq_true] at h
    simp [updateFirstPPr, updateFirstPPr_eq_none b a ns h.2]
  | .bookmarkEnd wid :: ns, h => by
    simp only [List.all_cons, Bool.and_eq_true] at h
    simp [updateFirstPPr, updateFirstPPr_eq_none b a ns h.2]
  | .run t :: ns, h => by
    simp only [List.all_cons, Bool.and_eq_true] at h
    simp [updateFirstPPr, updateFirstPPr_eq_none b a ns h.2]
  | .other :: ns, h => by
    simp only [List.all_cons, Bool.and_eq_true] at h
    simp [updateFirstPPr, updateFirstPPr_eq_none b a ns h.2]
  | .para cs :: ns, h => by
    simp only [List.all_cons, Bool.and_eq_true] at h
    simp [updateFirstPPr, updateFirstPPr_eq_none b a ns h.2]
  | .container cs :: ns, h => by
    simp only [List.all_cons, Bool.and_eq_true] at h
    simp [updateFirstPPr, updateFirstPPr_eq_none b a ns h.2]

theorem hasNode_leadList_start (nid : Nat) (lead : Option PPr) :
    hasNode (isStartNid nid) (leadList lead) = false := by
  cases lead <;> simp [leadList, hasNode, nodeHas, isStartNid]

theorem hasNode_leadList_end (w : String) (lead : Option PPr) :
    hasNode (isEndWid w) (leadList lead) = false := by
  cases lead <;> simp [leadList, hasNode, nodeHas, isEndWid]

theorem findPtr_cons_self (p : Node → Bool) (x : Node) (rest : List Node)
    (hx : p x = true) : findPtr p (x :: rest) = some ([], 0) := by
  cases x <;> simp [findPtr, hx]

theorem findPtr_in_para (p : Node → Bool) (A B ch1 rest : List Node) (x : Node)
    (hx : p x = true) (hA : hasNode p A = false)
    (hch1 : hasNode p ch1 = false) (hpara : ∀ cs, p (.para cs) = false) :
    findPtr p (A ++ .para (ch1 ++ x :: rest) :: B)
      = some ([A.length], ch1.length) := by
  rw [findPtr_append _ _ _ hA]
  have hch : findPtr p (ch1 ++ x :: rest) = some ([], ch1.length) := by
    rw [findPtr_append _ _ _ hch1, findPtr_cons_self p x rest hx]
    simp [shiftPtr]
  simp [findPtr, findPtrIn, hpara, hch, shiftPtr]

theorem split_noop_spec (A B rest : List Node) (lead : Option PPr)
    (nid : Nat) (wid : Option String) (name : String)
    (hA : hasNode (isStartNid nid) A = false) :
    split_paragraph_before_bookmark
        (A ++ .para (leadList lead ++ .bookmarkStart nid wid name :: rest) :: B)
        nid
      = (A ++ .para (leadList lead ++ .bookmarkStart nid wid name :: rest) :: B,
         false) := by
  have hfind := findPtr_in_para (isStartNid nid) A B (leadList lead) rest
    (.bookmarkStart nid wid name) (by simp [isStartNid]) hA
    (hasNode_leadList_start nid lead) (fun cs => rfl)
  simp only [split_paragraph_before_bookmark, hfind, nearestPara_at, nodeAt_at]
  cases lead with
  | none => simp [leadList, isPPrNode]
  | some pr => simp [leadList, isPPrNode]

theorem set_spacing_no_ppr (b a : Option String) (ns : List Node)
    (h : ns.all (fun n => !isPPrNode n) = true) :
    set_paragraph_spacing b a ns = .pPr (updPPr ⟨none, none, 0⟩ b a) :: ns := by
  unfold set_paragraph_spacing
  rw [updateFirstPPr_eq_none b a ns h]

theorem split_spec (A B pre rest : List Node) (lead : Option PPr)
    (nid : Nat) (wid : Option String) (name : String)
    (hA : hasNode (isStartNid nid) A = false)
    (hpre : hasNode (isStartNid nid) pre = false)
    (hpreP : pre.all (fun n => !isPPrNode n) = true)
    (hrestP : rest.all (fun n => !isPPrNode n) = true)
    (hne : pre ≠ []) :
    split_paragraph_before_bookmark
        (A ++ .para (leadList lead ++ pre ++ .bookmarkStart nid wid name :: rest) :: B)
        nid
      = (A ++ .para (.pPr (spacingAfterZero lead) :: pre)
            :: .para (.pPr (spacingBeforeZero lead)
                :: .bookmarkStart nid wid name :: rest) :: B,
         true) := by
  obtain ⟨p0, pre', rfl⟩ : ∃ p0 pre', pre = p0 :: pre' := by
    cases pre with
    | nil => exact absurd rfl hne
    | cons a l => exact ⟨a, l, rfl⟩
  have hch1 : hasNode (isStartNid nid) (leadList lead ++ p0 :: pre') = false := by
    rw [hasNode_append, hasNode_leadList_start, hpre]
    rfl
  have hfind := findPtr_in_para (isStartNid nid) A B (leadList lead ++ p0 :: pre')
    rest (.bookmarkStart nid wid name) (by simp [isStartNid]) hA hch1
    (fun cs => rfl)
  simp only [split_paragraph_before_bookmark, hfind, nearestPara_at, nodeAt_at,
    List.nil_append]
  cases lead with
  | some pr =>
    simp [leadList, isPPrNode, List.take_left, List.drop_left,
      set_paragraph_spacing, updateFirstPPr, spacingAfterZero, spacingBeforeZero,
      mapChildrenAt, drop_append_cons, updateFirstPPr_eq_none _ _ _ hrestP]
  | none =>
    have hp0 : isPPrNode p0 = false := by
      have := hpreP
      simp only [List.all_cons, Bool.and_eq_true] at this
      simpa using this.1
    simp [leadList, hp0, List.take_left, List.drop_left,
      updateFirstPPr_eq_none _ _ _ hpreP, set_paragraph_spacing, updateFirstPPr,
      spacingAfterZero, spacingBeforeZero, mapChildrenAt, drop_append_cons,
      updateFirstPPr_eq_none _ _ _ hrestP]

theorem replace_spec (A B ch1 mid rest : List Node) (nid : Nat) (w : String)
    (name text : String)
    (hA_end : hasNode (isEndWid w) A = false)
    (hch1_end : hasNode (isEndWid w) ch1 = false)
    (hmid_end : hasNode (isEndWid w) mid = false)
    (hA_start : hasNode (isStartNid nid) A = false)
    (hch1_start : hasNode (isStartNid nid) ch1 = false) :
    replace_bookmark_range_with_text
        (A ++ .para ((ch1 ++ .bookmarkStart nid (some w) name :: mid)
            ++ .bookmarkEnd (some w) :: rest) :: B)
        nid (some w) text
      = (A ++ .para (ch1 ++ .bookmarkStart nid (some w) name
            :: make_run_text text :: .bookmarkEnd (some w) :: rest) :: B,
         true) := by
  have hch1e : hasNode (isEndWid w)
      (ch1 ++ .bookmarkStart nid (some w) name :: mid) = false := by
    rw [hasNode_append, hch1_end]
    simp [hasNode, nodeHas, isEndWid, hmid_end]
  have hend := findPtr_in_para (isEndWid w) A B
    (ch1 ++ .bookmarkStart nid (some w) name :: mid) rest (.bookmarkEnd (some w))
    (by simp [isEndWid]) hA_end hch1e (fun cs => rfl)
  have hstart := findPtr_in_para (isStartNid nid) A B ch1
    (mid ++ .bookmarkEnd (some w) :: rest) (.bookmarkStart nid (some w) name)
    (by simp [isStartNid]) hA_start hch1_start (fun cs => rfl)
  rw [show ch1 ++ Node.bookmarkStart nid (some w) name
        :: (mid ++ Node.bookmarkEnd (some w) :: rest)
      = (ch1 ++ Node.bookmarkStart nid (some w) name :: mid)
        ++ Node.bookmarkEnd (some w) :: rest from by simp] at hstart
  have hmax : max (ch1.length + 1)
      ((ch1 ++ Node.bookmarkStart nid (some w) name :: mid).length)
        = (ch1 ++ Node.bookmarkStart nid (some w) name :: mid).length := by
    simp only [List.length_append, List.length_cons]
    omega
  have htake : ((ch1 ++ Node.bookmarkStart nid (some w) name :: mid)
      ++ Node.bookmarkEnd (some w) :: rest).take (ch1.length + 1)
        = ch1 ++ [Node.bookmarkStart nid (some w) name] := by
    rw [show (ch1 ++ Node.bookmarkStart nid (some w) name :: mid)
          ++ Node.bookmarkEnd (some w) :: rest
        = ch1 ++ Node.bookmarkStart nid (some w) name
            :: (mid ++ Node.bookmarkEnd (some w) :: rest) from by simp]
    exact take_append_cons ch1 _ _
  have hdrop := List.drop_left
    (ch1 ++ Node.bookmarkStart nid (some w) name :: mid)
    (Node.bookmarkEnd (some w) :: rest)
  simp only [replace_bookmark_range_with_text, find_bookmark_end, hend, hstart]
  simp [mapChildrenAt, modify_append_cons, hmax, htake, hdrop, take_append_cons]

/-! ## Claim C3: structural property of the split -/

/-- C3: for every paragraph (in any body position) in which the bookmark
start marker is preceded by k ≥ 1 movable children `pre` (the children after
the optional leading `w:pPr`), the split inserts a new preceding paragraph
whose movable children are exactly `pre` in their original order, and the
original paragraph's child list retains none of them.  Hypotheses: the
marker identity is unique in the body prefix and in `pre`, the paragraph is
well-formed (no interior `w:pPr` among `pre`/`rest`), and the moved children
are distinct from the remaining ones (value disjointness standing for lxml
object identity). -/
theorem claim_C3_split_structure (A B pre rest : List Node) (lead : Option PPr)
    (nid : Nat) (wid : Option String) (name : String)
    (hA : hasNode (isStartNid nid) A = false)
    (hpre : hasNode (isStartNid nid) pre = false)
    (hpreP : pre.all (fun n => !isPPrNode n) = true)
    (hrestP : rest.all (fun n => !isPPrNode n) = true)
    (hne : pre ≠ [])
    (hdisj : ∀ n ∈ pre, n ∉ rest) :
    ∃ newPara origPara : List Node,
      split_paragraph_before_bookmark
          (A ++ .para (leadList lead ++ pre
              ++ .bookmarkStart nid wid name :: rest) :: B) nid
        = (A ++ .para newPara :: .para origPara :: B, true) ∧
      movableChildren newPara = pre ∧
      (∀ n ∈ pre, n ∉ origPara) := by
  refine ⟨.pPr (spacingAfterZero lead) :: pre,
    .pPr (spacingBeforeZero lead) :: .bookmarkStart nid wid name :: rest,
    split_spec A B pre rest lead nid wid name hA hpre hpreP hrestP hne,
    rfl, ?_⟩
  intro n hn hmem
  have hnp : (!isPPrNode n) = true := List.all_eq_true.mp hpreP n hn
  have hns : isStartNid nid n = false := hasNode_false_forall _ _ hpre n hn
  rcases List.mem_cons.mp hmem with rfl | hmem1
  · simp [isPPrNode] at hnp
  · rcases List.mem_cons.mp hmem1 with rfl | hmem2
    · simp [isStartNid] at hns
    · exact hdisj n hn hmem2

/-- Witness for C3: one paragraph with a copied `w:pPr`, one moved run and
one remaining run. -/
theorem claim_C3_split_structure_witness :
    ∃ newPara origPara : List Node,
      split_paragraph_before_bookmark
          ([] ++ .para (leadList (some ⟨none, none, 5⟩) ++ [.run "label"]
              ++ .bookmarkStart 1 (some "0") "N" :: [.run "y"]) :: []) 1
        = ([] ++ .para newPara :: .para origPara :: [], true) ∧
      movableChildren newPara = [.run "label"] ∧
      (∀ n ∈ [Node.run "label"], n ∉ origPara) :=
  claim_C3_split_structure [] [] [.run "label"] [.run "y"]
    (some ⟨none, none, 5⟩) 1 (some "0") "N" rfl rfl rfl rfl
    (by simp)
    (by
      intro n hn
      simp only [List.mem_singleton] at hn
      subst hn
      intro hmem
      simp only [List.mem_singleton, Node.run.injEq] at hmem
      exact absurd hmem (by decide))

/-! ## Claim C4: failure cases of the range replacer -/

/-- C4: when no `w:bookmarkEnd` carries the start marker's identifier, or
the first matching end marker has a different immediate parent than the
start marker, `replace_bookmark_range_with_text` mutates nothing and
reports failure (so every other bookmark is unaffected). -/
theorem claim_C4_replace_skip (doc : List Node) (nid : Nat) (w : String)
    (text : String)
    (h : hasNode (isEndWid w) doc = false ∨
      ∃ se ee : Ptr, find_bookmark_end doc (some w) = some ee ∧
        findPtr (isStartNid nid) doc = some se ∧ se.1 ≠ ee.1) :
    replace_bookmark_range_with_text doc nid (some w) text = (doc, false) := by
  rcases h with h | ⟨se, ee, hee, hse, hptr⟩
  · simp [replace_bookmark_range_with_text, find_bookmark_end,
      findPtr_eq_none _ _ h]
  · obtain ⟨ecp, eidx⟩ := ee
    obtain ⟨scp, sidx⟩ := se
    simp only [replace_bookmark_range_with_text, hee, hse]
    rw [if_neg hptr]

/-- Witness for C4: a start/end pair with the same identifier sitting in two
different paragraphs. -/
theorem claim_C4_replace_skip_witness :
    replace_bookmark_range_with_text
        [.para [.bookmarkStart 1 (some "7") "N"], .para [.bookmarkEnd (some "7")]]
        1 (some "7") "N"
      = ([.para [.bookmarkStart 1 (some "7") "N"],
          .para [.bookmarkEnd (some "7")]], false) :=
  claim_C4_replace_skip _ 1 "7" "N"
    (Or.inr ⟨([0], 0), ([1], 0), rfl, rfl, by decide⟩)

/-! ## Claim C5: anomaly handling of the splitter -/

/-- C5: on every structural anomaly — the marker is detached or has no
enclosing paragraph (`get_paragraph_element` finds nothing), or the marker
is not a direct child of its nearest enclosing paragraph
(`children.index` fails) — the splitter returns the no-split result and the
tree is unchanged; being a total function, it raises nothing.  (A paragraph
without a parent is not constructible in the embedding, matching lxml, where
a paragraph reached from an attached marker always has a parent.) -/
theorem claim_C5_split_anomaly (doc : List Node) (nid : Nat)
    (h : findPtr (isStartNid nid) doc = none ∨
      (∃ cp i, findPtr (isStartNid nid) doc = some (cp, i) ∧
        nearestPara doc cp = none) ∨
      (∃ cp i pp pi, findPtr (isStartNid nid) doc = some (cp, i) ∧
        nearestPara doc cp = some (pp, pi) ∧ pp ++ [pi] ≠ cp)) :
    split_paragraph_before_bookmark doc nid = (doc, false) := by
  rcases h with h | ⟨cp, i, hf, hn⟩ | ⟨cp, i, pp, pi, hf, hn, hne⟩
  · simp [split_paragraph_before_bookmark, h]
  · simp [split_paragraph_before_bookmark, hf, hn]
  · simp only [split_paragraph_before_bookmark, hf, hn]
    rw [if_neg hne]

/-- Witness for C5: a stray marker at body level, outside any paragraph. -/
theorem claim_C5_split_anomaly_witness :
    split_paragraph_before_bookmark [.bookmarkStart 4 (some "9") "S"] 4
      = ([.bookmarkStart 4 (some "9") "S"], false) :=
  claim_C5_split_anomaly [.bookmarkStart 4 (some "9") "S"] 4
    (Or.inr (Or.inl ⟨[], 0, rfl, rfl⟩))

/-! ## Claim C6: no-op when the marker is already first -/

/-- C6: for every paragraph whose bookmark-start marker is the first child
after the optional leading `w:pPr`, the splitter returns the no-split result
and the document — in particular the paragraph's child count and order — is
unchanged. -/
theorem claim_C6_split_noop (A B rest : List Node) (lead : Option PPr)
    (nid : Nat) (wid : Option String) (name : String)
    (hA : hasNode (isStartNid nid) A = false) :
    split_paragraph_before_bookmark
        (A ++ .para (leadList lead ++ .bookmarkStart nid wid name :: rest) :: B)
        nid
      = (A ++ .para (leadList lead ++ .bookmarkStart nid wid name :: rest) :: B,
         false) :=
  split_noop_spec A B rest lead nid wid name hA

/-- Witness for C6: a paragraph whose marker directly follows its `w:pPr`. -/
theorem claim_C6_split_noop_witness :
    split_paragraph_before_bookmark
        ([] ++ .para (leadList (some ⟨none, none, 3⟩)
            ++ .bookmarkStart 1 (some "0") "N" :: [.run "x"]) :: []) 1
      = ([] ++ .para (leadList (some ⟨none, none, 3⟩)
            ++ .bookmarkStart 1 (some "0") "N" :: [.run "x"]) :: [], false) :=
  claim_C6_split_noop [] [] [.run "x"] (some ⟨none, none, 3⟩) 1 (some "0") "N" rfl

/-! ## Claim C7: skipped bookmarks -/

theorem process_step_skip (valid : List String) (nfkd : String → String)
    (st : RunState) (nid : Nat) (wid : Option String) (name : String)
    (h : bookmark_eligible valid name = false) :
    process_step valid nfkd st (nid, wid, name) = st := by
  cases h1 : (str_starts (str_lower name) "text"
      || str_starts (str_lower name) "check") with
  | true => simp [process_step, h1]
  | false =>
    cases h2 : valid.contains name with
    | true =>
      exfalso
      have := (bookmark_eligible_iff valid name).mpr ⟨h1, h2⟩
      rw [h] at this
      exact Bool.false_ne_true this
    | false =>
      have hnm : ¬ name ∈ valid := fun hm => by
        have h3 : valid.contains name = true := List.elem_eq_true_of_mem hm
        rw [h3] at h2
        exact absurd h2 (by simp)
      simp [process_step, h1, h2, hnm]

theorem process_foldl_skip (valid : List String) (nfkd : String → String) :
    ∀ (l : List (Nat × Option String × String)) (st : RunState),
      (∀ b ∈ l, bookmark_eligible valid b.2.2 = false) →
      l.foldl (process_step valid nfkd) st = st
  | [], _, _ => rfl
  | b :: l, st, h => by
    obtain ⟨nid, wid, name⟩ := b
    rw [List.foldl_cons,
      process_step_skip valid nfkd st nid wid name (h _ (List.mem_cons_self _ _))]
    exact process_foldl_skip valid nfkd l st
      (fun b hb => h b (List.mem_cons_of_mem _ hb))

/-- C7 (amended): an ineligible bookmark is skipped outright — its own
processing mutates nothing — and consequently a document in which every
snapshot bookmark is ineligible comes out of `process_document` completely
unchanged, with a zero tally.  (The original per-location claim fails when
an eligible bookmark's range encloses the skipped one; see the
counterexample.) -/
theorem claim_C7_skipped_unchanged (valid : List String) (nfkd : String → String)
    (doc : List Node) (uniq : List String)
    (h : ∀ b ∈ iter_bookmark_starts doc, bookmark_eligible valid b.2.2 = false) :
    process_document valid nfkd doc uniq = ⟨doc, uniq, 0⟩ :=
  process_foldl_skip valid nfkd (iter_bookmark_starts doc) ⟨doc, uniq, 0⟩ h

/-- Witness for C7: a document whose only bookmark has the excluded "Text"
prefix, processed against an approved set that does not list it. -/
theorem claim_C7_skipped_unchanged_witness :
    process_document ["ChildName"] (fun s => s)
        [.para [.bookmarkStart 1 (some "0") "TextBox1", .run "x",
                .bookmarkEnd (some "0")]] []
      = ⟨[.para [.bookmarkStart 1 (some "0") "TextBox1", .run "x",
                 .bookmarkEnd (some "0")]], [], 0⟩ :=
  claim_C7_skipped_unchanged ["ChildName"] (fun s => s) _ [] (by decide)

/-- Counterexample for C7 as stated: bookmark 2 ("Other") is not approved,
yet after processing, its markers and content are gone — the approved
bookmark "Approved" encloses it and the range replacement deletes
everything strictly between its own markers. -/
theorem claim_C7_counterexample :
    bookmark_eligible ["Approved"] "Other" = false ∧
    hasNode (isStartNid 2) docC7ce = true ∧
    hasNode (isStartNid 2)
        (process_document ["Approved"] (fun s => s) docC7ce []).doc = false :=
  ⟨by decide, by decide, by decide⟩

/-! ## Claim C1: content of a processed bookmark range -/

/-- Counterexample for C1 as stated: an approved, non-excluded bookmark is
processed — the content between its markers becomes the single text run
"ChildName" — but the `w:bookmarkStart`/`w:bookmarkEnd` markers themselves
remain in the document, so "no bookmark start/end markers remain detectable
at that location" is false; the code never removes the markers. -/
theorem claim_C1_counterexample :
    bookmark_eligible ["ChildName"] "ChildName" = true ∧
    process_document ["ChildName"] (fun s => s) docC1ce []
      = ⟨[.para [.bookmarkStart 1 (some "0") "ChildName", .run "ChildName",
                 .bookmarkEnd (some "0")]], ["ChildName"], 1⟩ ∧
    hasNode (isStartNid 1)
        (process_document ["ChildName"] (fun s => s) docC1ce []).doc = true :=
  ⟨by decide, rfl, by decide⟩

/-- C1 (amended): for every bookmark whose name is in the approved set and
whose lowercase form does not start with "text" or "check", whose matching
end marker sits after it under the same paragraph parent, and such that
every other named bookmark of the document's snapshot is filtered out
(absent from the approved set or prefix-excluded — those are skipped
outright and mutate nothing), `process_document` leaves the content strictly
between the start and end markers as exactly one text node carrying the
bookmark's own name and counts one replacement; the two markers themselves
remain in place (they are not removed).  The existential covers the
split-dependent prefix: `P2` is the body up to the bookmark's paragraph
(including the new paragraph when a split occurred) and `lead2` the
paragraph content before the start marker. -/
theorem claim_C1_amended (valid : List String) (nfkd : String → String)
    (uniq : List String) (A B pre mid rest : List Node) (lead : Option PPr)
    (nid : Nat) (w : String) (name : String)
    (l1 l2 : List (Nat × Option String × String))
    (hsnap : iter_bookmark_starts
        (A ++ .para ((leadList lead ++ pre)
            ++ .bookmarkStart nid (some w) name
              :: (mid ++ .bookmarkEnd (some w) :: rest)) :: B)
      = l1 ++ (nid, some w, name) :: l2)
    (hl1 : ∀ b ∈ l1, bookmark_eligible valid b.2.2 = false)
    (hl2 : ∀ b ∈ l2, bookmark_eligible valid b.2.2 = false)
    (helig : bookmark_eligible valid name = true)
    (hA_s : hasNode (isStartNid nid) A = false)
    (hpre_s : hasNode (isStartNid nid) pre = false)
    (hA_e : hasNode (isEndWid w) A = false)
    (hpre_e : hasNode (isEndWid w) pre = false)
    (hmid_e : hasNode (isEndWid w) mid = false)
    (hpreP : pre.all (fun n => !isPPrNode n) = true)
    (hmidP : mid.all (fun n => !isPPrNode n) = true)
    (hrestP : rest.all (fun n => !isPPrNode n) = true) :
    ∃ P2 lead2 : List Node,
      (process_document valid nfkd
          (A ++ .para ((leadList lead ++ pre)
              ++ .bookmarkStart nid (some w) name
                :: (mid ++ .bookmarkEnd (some w) :: rest)) :: B) uniq).doc
        = P2 ++ .para (lead2 ++ .bookmarkStart nid (some w) name
            :: make_run_text name :: .bookmarkEnd (some w) :: rest) :: B ∧
      (process_document valid nfkd
          (A ++ .para ((leadList lead ++ pre)
              ++ .bookmarkStart nid (some w) name
                :: (mid ++ .bookmarkEnd (some w) :: rest)) :: B) uniq).count
        = 1 := by
  obtain ⟨hp, hm⟩ := (bookmark_eligible_iff valid name).mp helig
  have hmem : name ∈ valid := List.mem_of_elem_eq_true hm
  have hRall : (mid ++ Node.bookmarkEnd (some w) :: rest).all
      (fun n => !isPPrNode n) = true := by
    rw [List.all_append, hmidP, List.all_cons, hrestP]
    rfl
  have hskip1 : ∀ st : RunState, l1.foldl (process_step valid nfkd) st = st :=
    fun st => process_foldl_skip valid nfkd l1 st hl1
  have hskip2 : ∀ st : RunState, l2.foldl (process_step valid nfkd) st = st :=
    fun st => process_foldl_skip valid nfkd l2 st hl2
  rcases eq_or_ne pre [] with hpre0 | hne
  · subst hpre0
    have hnoop := split_noop_spec A B (mid ++ .bookmarkEnd (some w) :: rest)
      lead nid (some w) name hA_s
    have hrepl := replace_spec A B (leadList lead) mid rest nid w name name
      hA_e (hasNode_leadList_end w lead) hmid_e hA_s
      (hasNode_leadList_start nid lead)
    simp only [List.append_assoc, List.cons_append, List.nil_append]
      at hnoop hrepl
    refine ⟨A, leadList lead, ?_, ?_⟩ <;>
    · unfold process_document
      rw [hsnap, List.foldl_append, hskip1, List.foldl_cons, hskip2]
      simp [process_step, hp, hmem, hnoop, hrepl, List.append_assoc]
  · have hsplit := split_spec A B pre (mid ++ .bookmarkEnd (some w) :: rest)
      lead nid (some w) name hA_s hpre_s hpreP hRall hne
    have hAe2 : hasNode (isEndWid w)
        (A ++ [Node.para (Node.pPr (spacingAfterZero lead) :: pre)]) = false := by
      rw [hasNode_append, hA_e]
      simp [hasNode, nodeHas, isEndWid, hpre_e]
    have hAs2 : hasNode (isStartNid nid)
        (A ++ [Node.para (Node.pPr (spacingAfterZero lead) :: pre)]) = false := by
      rw [hasNode_append, hA_s]
      simp [hasNode, nodeHas, isStartNid, hpre_s]
    have hrepl := replace_spec
      (A ++ [Node.para (Node.pPr (spacingAfterZero lead) :: pre)]) B
      [Node.pPr (spacingBeforeZero lead)] mid rest nid w name name
      hAe2 (by simp [hasNode, nodeHas, isEndWid]) hmid_e hAs2
      (by simp [hasNode, nodeHas, isStartNid])
    simp only [List.append_assoc, List.cons_append, List.nil_append]
      at hsplit hrepl
    refine ⟨A ++ [Node.para (Node.pPr (spacingAfterZero lead) :: pre)],
      [Node.pPr (spacingBeforeZero lead)], ?_, ?_⟩ <;>
    · unfold process_document
      rw [hsnap, List.foldl_append, hskip1, List.foldl_cons, hskip2]
      simp [process_step, hp, hmem, hsplit, hrepl, List.append_assoc]

/-- Witness for C1 (amended): the approved bookmark "ChildName" with prefix
text and a same-parent marker pair, in a document that also carries an
earlier, prefix-excluded "TextBox1" bookmark (which is skipped). -/
theorem claim_C1_amended_witness :
    ∃ P2 lead2 : List Node,
      (process_document ["ChildName"] (fun s => s)
          ([.para [.bookmarkStart 2 (some "1") "TextBox1", .run "t",
              .bookmarkEnd (some "1")]]
            ++ .para ((leadList none ++ [.run "prefix"])
              ++ .bookmarkStart 1 (some "0") "ChildName"
                :: ([.run "old"] ++ .bookmarkEnd (some "0") :: [])) :: []) []).doc
        = P2 ++ .para (lead2 ++ .bookmarkStart 1 (some "0") "ChildName"
            :: make_run_text "ChildName" :: .bookmarkEnd (some "0") :: []) :: [] ∧
      (process_document ["ChildName"] (fun s => s)
          ([.para [.bookmarkStart 2 (some "1") "TextBox1", .run "t",
              .bookmarkEnd (some "1")]]
            ++ .para ((leadList none ++ [.run "prefix"])
              ++ .bookmarkStart 1 (some "0") "ChildName"
                :: ([.run "old"] ++ .bookmarkEnd (some "0") :: [])) :: []) []).count
        = 1 :=
  claim_C1_amended ["ChildName"] (fun s => s) []
    [.para [.bookmarkStart 2 (some "1") "TextBox1", .run "t",
        .bookmarkEnd (some "1")]]
    [] [.run "prefix"] [.run "old"] [] none 1 "0" "ChildName"
    [(2, some "1", "TextBox1")] [] (by decide) (by decide) (by decide)
    (by decide) (by decide) rfl (by decide) rfl rfl rfl rfl rfl

end CaresBookmarks
